import Mathlib

/-!
Verification of the chirpchirp audio modem (chirpchirp.py).

The byte codec (Fibonacci/Zeckendorf coding), the RX stream assembler,
the chirp waveform synthesis and the correlation demodulator are embedded
shallowly: integer code over Nat, the float numerics over the reals.
-/

namespace ChirpChirp

set_option maxRecDepth 200000

/-- Naive recursive Fibonacci, as in the source:
F(0)=0, F(1)=1, F(n)=F(n-1)+F(n-2). -/
def F : Nat → Nat
  | 0 => 0
  | 1 => 1
  | n + 2 => F (n + 1) + F n

/-- The while loop of encode: starting from n, increment n while F(n) <= x.
Fuel-driven; fuel x+2 suffices since F(x+2) > x (F(m+1) >= m). -/
def loopn (x : Nat) : Nat → Nat → Nat
  | 0, n => n
  | fuel + 1, n => if F n ≤ x then loopn x fuel (n + 1) else n

/-- The for loop of encode: for i in range(i0, 1, -1), greedily subtract
F(i) from the remainder r, recording digit 1 when it fits, else 0.
Digits are produced in decreasing index order, as the Python list b. -/
def encRec : Nat → Nat → List Nat
  | _, 0 => []
  | _, 1 => []
  | r, i + 2 =>
    if F (i + 2) ≤ r then 1 :: encRec (r - F (i + 2)) (i + 1)
    else 0 :: encRec r (i + 1)

/-- encode(x): find smallest n with F(n) > x (starting the scan at n=1),
collect greedy Zeckendorf digits for indices n-1 down to 2, reverse them
(so they read in increasing index order) and append the terminator 1. -/
def encode (x : Nat) : List Nat :=
  let n := loopn x (x + 2) 1
  (encRec x (n - 1)).reverse ++ [1]

/-- decode(x): drop the final bit, and sum F(i+2)*b over positions i of
the rest, accumulating left to right as the Python loop does. -/
def decode (x : List Nat) : Nat :=
  x.dropLast.enum.foldl (fun w p => w + F (p.1 + 2) * p.2) 0

/-- The assembler termination test of the rx loop: bits[-2:] == [1, 1]. -/
def ends11 (l : List Nat) : Bool :=
  l.drop (l.length - 2) == [1, 1]

/-- Whether a bit list contains two adjacent 1 bits anywhere. -/
def hasAdj11 : List Nat → Bool
  | 1 :: 1 :: _ => true
  | _ :: rest => hasAdj11 rest
  | [] => false

/-- One step of the rx assembler loop: append the drained bit to the
accumulator; if the last two accumulated bits are both 1, decode the
accumulator, emit the byte, and clear the accumulator. State is
(accumulator, emitted bytes). -/
def rxStep (st : List Nat × List Nat) (bit : Nat) : List Nat × List Nat :=
  let acc := st.1 ++ [bit]
  if ends11 acc then ([], st.2 ++ [decode acc]) else (acc, st.2)

/-- Run the rx assembler over a bit stream delivered in order with no
gaps, starting from an empty accumulator; result is the emitted bytes. -/
def rxRun (bits : List Nat) : List Nat :=
  (bits.foldl rxStep ([], [])).2

/-- Modelled from the spec: the iterative (pair-passing) Fibonacci that
the spec's design notes ask to replace the naive recursion with. -/
def fibPair : Nat → Nat × Nat
  | 0 => (0, 1)
  | n + 1 => ((fibPair n).2, (fibPair n).1 + (fibPair n).2)

/-- Modelled from the spec: iterative Fibonacci, F via a linear pass. -/
def fibIter (n : Nat) : Nat := (fibPair n).1

/-- numpy.linspace with endpoint=False: num points start + (stop-start)/num * i. -/
noncomputable def linspace (start stop : ℝ) (num : Nat) : List ℝ :=
  (List.range num).map (fun i : Nat => start + (stop - start) / num * (i : ℝ))

/-- chirp(bandwidth, period, samples): t = linspace(0, period, samples,
endpoint=False); k = (fmax - fmin) / period; f = t*k/2 + fmin; the
samples are sin(2*pi*f*t). -/
noncomputable def chirp (fmin fmax period : ℝ) (samples : Nat) : List ℝ :=
  (linspace 0 period samples).map
    (fun t => Real.sin (2 * Real.pi * (t * ((fmax - fmin) / period) / 2 + fmin) * t))

/-- The "one" reference waveform of the main program:
chirp((fmin, fmax), period, samples) * amplitude. -/
noncomputable def oneWave (fmin fmax period : ℝ) (samples : Nat) (amplitude : ℝ) : List ℝ :=
  (chirp fmin fmax period samples).map (fun s => s * amplitude)

/-- The "zero" reference waveform of the main program: one[::-1]. -/
noncomputable def zeroWave (fmin fmax period : ℝ) (samples : Nat) (amplitude : ℝ) : List ℝ :=
  (oneWave fmin fmax period samples amplitude).reverse

/-- numpy.max of a nonempty array as a fold; junk value 0 on []. -/
noncomputable def amax : List ℝ → ℝ
  | [] => 0
  | x :: xs => xs.foldl max x

/-- numpy.min of a nonempty array as a fold; junk value 0 on []. -/
noncomputable def amin : List ℝ → ℝ
  | [] => 0
  | x :: xs => xs.foldl min x

/-- numpy.mean, with the 0/0 = 0 convention of real division on []. -/
noncomputable def amean (l : List ℝ) : ℝ := l.sum / l.length

/-- numpy.std: square root of the mean squared deviation from the mean. -/
noncomputable def astd (l : List ℝ) : ℝ :=
  Real.sqrt ((l.map (fun x => (x - amean l) ^ 2)).sum / l.length)

/-- The demodulator score of a correlation sequence: (max - min) / std. -/
noncomputable def score (l : List ℝ) : ℝ := (amax l - amin l) / astd l

/-- modxcor(x, y) in exact real arithmetic: x and reversed y are
zero-padded to length m+n; the rfft/multiply/irfft pipeline computes
their circular convolution z of length m+n; the result is the Python
slice z[(n/2):-(n/2)] (empty when n/2 = 0, as in Python). -/
noncomputable def modxcor (x y : List ℝ) : List ℝ :=
  let m := x.length
  let n := y.length
  let xp := x ++ List.replicate n 0
  let yp := y.reverse ++ List.replicate m 0
  let z := (List.range (m + n)).map (fun k =>
    ((List.range (m + n)).map
      (fun j => xp.getD j 0 * yp.getD ((k + (m + n) - j) % (m + n)) 0)).sum)
  if n / 2 = 0 then [] else (z.take (m + n - n / 2)).drop (n / 2)

/-- dem(zero, one, bits, frames): score the captured block against both
references and push at most one bit decision; the queue puts are modelled
as the returned list (in the order 0 then 1, as the source tests them).
The source always returns (None, paContinue): the function is total and
raises no error, which the embedding reflects by being a total Lean
function. -/
noncomputable def dem (zero one data : List ℝ) : List Nat :=
  let xc0 := modxcor data zero
  let xc1 := modxcor data one
  let k0 := score xc0
  let k1 := score xc1
  (if k0 > 2 * k1 then [0] else []) ++ (if k1 > 2 * k0 then [1] else [])

lemma fibPair_eq (n : Nat) : fibPair n = (F n, F (n + 1)) := by
  induction n with
  | zero => rfl
  | succ n ih => simp [fibPair, ih, F, Nat.add_comm]

/-- C1: for every byte value v in [0,255], decoding the encoding of v
returns v: decode(encode(v)) = v. -/
theorem decode_encode_roundtrip : ∀ v : Fin 256, decode (encode v.val) = v.val := by
  decide

/-- C2: for every byte value v in [0,255], the digit portion of encode(v)
(all bits except the final terminator) never has two adjacent 1 bits, so
the only place two consecutive 1s can occur is the final two positions. -/
theorem encode_no_adjacent_ones :
    ∀ v : Fin 256, hasAdj11 ((encode v.val).dropLast) = false := by
  decide

/-- C6: feeding the bit stream [0,1,1,0,1,1] to the stream assembler with
no gaps emits exactly the two bytes [2,2], each decoded from the
accumulator [0,1,1], which decodes to 2. -/
theorem rx_assembler_example :
    rxRun [0, 1, 1, 0, 1, 1] = [2, 2] ∧ decode [0, 1, 1] = 2 := by
  decide

/-- C8: encode(0) = [1], encode(1) = [1,1], encode(2) = [0,1,1], and
decode([0,1,1]) = 2. -/
theorem encode_decode_edge_cases :
    encode 0 = [1] ∧ encode 1 = [1, 1] ∧ encode 2 = [0, 1, 1] ∧
      decode [0, 1, 1] = 2 := by
  decide

/-- C9: the naive recursive Fibonacci F agrees with the iterative
(pair-passing) Fibonacci at every natural number, so replacing the
recursion by an iterative table preserves encode and decode. -/
theorem F_eq_fibIter : ∀ n : Nat, F n = fibIter n := by
  intro n
  rw [fibIter, fibPair_eq]

/-- C10: for v in [1,255], encode(v) ends in two consecutive 1 bits and
no proper prefix of encode(v) does, so the assembler's end-of-codeword
check fires exactly at the codeword boundary; encode(0) = [1] contains no
pair of adjacent 1 bits at all. -/
theorem encode_terminator_unique :
    (encode 0 = [1] ∧ hasAdj11 (encode 0) = false) ∧
      ∀ v : Fin 255, ends11 (encode (v.val + 1)) = true ∧
        ∀ k : Fin (encode (v.val + 1)).length,
          ends11 ((encode (v.val + 1)).take k.val) = false := by
  decide

lemma le_foldl_max (xs : List ℝ) : ∀ a : ℝ, a ≤ xs.foldl max a := by
  induction xs with
  | nil => intro a; simp
  | cons y ys ih =>
    intro a
    have h1 : a ≤ max a y := le_max_left a y
    have h2 : max a y ≤ ys.foldl max (max a y) := ih (max a y)
    simpa [List.foldl] using le_trans h1 h2

lemma foldl_min_le (xs : List ℝ) : ∀ a : ℝ, xs.foldl min a ≤ a := by
  induction xs with
  | nil => intro a; simp
  | cons y ys ih =>
    intro a
    have h1 : min a y ≤ a := min_le_left a y
    have h2 : ys.foldl min (min a y) ≤ min a y := ih (min a y)
    simpa [List.foldl] using le_trans h2 h1

lemma amin_le_amax (l : List ℝ) : amin l ≤ amax l := by
  cases l with
  | nil => simp [amin, amax]
  | cons x xs =>
    exact le_trans (foldl_min_le xs x) (le_foldl_max xs x)

lemma score_nonneg (l : List ℝ) : 0 ≤ score l :=
  div_nonneg (sub_nonneg.mpr (amin_le_amax l)) (Real.sqrt_nonneg _)

lemma oneWave_aliased : oneWave 0 880 1 2 1 = [0, 0] := by
  simp [oneWave, chirp, linspace, List.range_succ]
  rw [show (2 : ℝ) * Real.pi * (2⁻¹ * 880 / 2) * 2⁻¹ = ((220 : Nat) : ℝ) * Real.pi by
    push_cast; ring]
  exact Real.sin_nat_mul_pi 220

lemma zeroWave_aliased : zeroWave 0 880 1 2 1 = [0, 0] := by
  rw [zeroWave, oneWave_aliased]
  rfl

lemma modxcor_zeros : modxcor [(0 : ℝ), 0] [0, 0] = [0, 0] := by
  norm_num [modxcor, List.range_succ, List.getD]

lemma score_pair_zero : score [(0 : ℝ), 0] = 0 := by
  norm_num [score, amax, amin, astd, amean, max_def, min_def]

lemma score_nil : score ([] : List ℝ) = 0 := by
  simp [score, amax, amin, astd, amean]

lemma modxcor_single_ref : modxcor [(0 : ℝ), 1] [1] = [] := by
  norm_num [modxcor]

lemma modxcor_pair_self : modxcor [(0 : ℝ), 1] [0, 1] = [1, 0] := by
  norm_num [modxcor, List.range_succ, List.getD]

lemma score_one_zero : score [(1 : ℝ), 0] = 2 := by
  have hs : Real.sqrt (1 / 4 : ℝ) = 1 / 2 := by
    rw [show (1 / 4 : ℝ) = (1 / 2) ^ 2 by norm_num,
      Real.sqrt_sq (by norm_num : (0 : ℝ) ≤ 1 / 2)]
  norm_num [score, amax, amin, astd, amean, max_def, min_def, hs]

/-- C3: the demodulator scores each reference as (max - min)/std of its
cross-correlation with the block, emits bit 0 when score(zero) exceeds
twice score(one), bit 1 when score(one) exceeds twice score(zero), and
nothing otherwise; in every case at most one bit is produced, and an
ambiguous block yields the empty emission rather than an error. -/
theorem dem_at_most_one_bit :
    ∀ z o d : List ℝ,
      dem z o d =
          (if score (modxcor d z) > 2 * score (modxcor d o) then [0] else []) ++
            (if score (modxcor d o) > 2 * score (modxcor d z) then [1] else []) ∧
        (dem z o d).length ≤ 1 := by
  intro z o d
  refine ⟨rfl, ?_⟩
  have h0 : 0 ≤ score (modxcor d z) := score_nonneg _
  have h1 : 0 ≤ score (modxcor d o) := score_nonneg _
  show ((if score (modxcor d z) > 2 * score (modxcor d o) then [0] else []) ++
      (if score (modxcor d o) > 2 * score (modxcor d z) then [1] else [])).length ≤ 1
  split_ifs with hA hB hB
  · exact absurd h0 (by push_neg; linarith)
  · simp
  · simp
  · simp

/-- C5 counterexample: at band (0, 880), period 1, 2 samples per period
and amplitude 1, sampling aliases the chirp to the all-zero waveform, so
a captured block exactly equal to the "one" reference scores 0 against
both references: score(one) > 2*score(zero) fails and the demodulator
emits no bit at all, refuting the claim as stated at this input. -/
theorem dem_exact_match_fails :
    ¬ score (modxcor (oneWave 0 880 1 2 1) (oneWave 0 880 1 2 1)) >
        2 * score (modxcor (oneWave 0 880 1 2 1) (zeroWave 0 880 1 2 1)) ∧
      dem (zeroWave 0 880 1 2 1) (oneWave 0 880 1 2 1) (oneWave 0 880 1 2 1) = [] := by
  constructor
  · rw [oneWave_aliased, zeroWave_aliased, modxcor_zeros, score_pair_zero]
    norm_num
  · rw [oneWave_aliased, zeroWave_aliased]
    show (if score (modxcor [(0 : ℝ), 0] [0, 0]) >
          2 * score (modxcor [(0 : ℝ), 0] [0, 0]) then [0] else []) ++
        (if score (modxcor [(0 : ℝ), 0] [0, 0]) >
          2 * score (modxcor [(0 : ℝ), 0] [0, 0]) then [1] else []) = []
    rw [modxcor_zeros, score_pair_zero]
    norm_num

/-- C5 amended: a captured block exactly equal to a reference yields the
corresponding bit whenever that reference's score dominates by the factor
of 2 the decision rule requires: if score(one) > 2*score(zero) on an
exact "one" match the demodulator emits exactly bit 1, and symmetrically
an exact "zero" match with score(zero) > 2*score(one) emits exactly bit
0. (Exact match alone does not force the dominance: see the degenerate
aliased configuration of the counterexample, where no bit is emitted.) -/
theorem dem_exact_match_dominant :
    ∀ z o : List ℝ,
      (score (modxcor o o) > 2 * score (modxcor o z) → dem z o o = [1]) ∧
      (score (modxcor z z) > 2 * score (modxcor z o) → dem z o z = [0]) := by
  intro z o
  constructor
  · intro h
    have h0 : 0 ≤ score (modxcor o z) := score_nonneg _
    have h1 : 0 ≤ score (modxcor o o) := score_nonneg _
    show (if score (modxcor o z) > 2 * score (modxcor o o) then [0] else []) ++
        (if score (modxcor o o) > 2 * score (modxcor o z) then [1] else []) = [1]
    rw [if_neg (by intro hcon; linarith), if_pos h]
    rfl
  · intro h
    have h0 : 0 ≤ score (modxcor z z) := score_nonneg _
    have h1 : 0 ≤ score (modxcor z o) := score_nonneg _
    show (if score (modxcor z z) > 2 * score (modxcor z o) then [0] else []) ++
        (if score (modxcor z o) > 2 * score (modxcor z z) then [1] else []) = [0]
    rw [if_pos h, if_neg (by intro hcon; linarith)]
    rfl

/-- Witness for C5 amended: with references zero = [1], one = [0, 1] and
the captured block equal to the "one" reference, score(one) = 2 and
score(zero) = 0, dominance holds, and the demodulator emits [1]. -/
theorem dem_exact_match_dominant_witness :
    dem [(1 : ℝ)] [0, 1] [0, 1] = [1] :=
  (dem_exact_match_dominant [(1 : ℝ)] [0, 1]).1 (by
    rw [modxcor_pair_self, modxcor_single_ref, score_one_zero, score_nil]
    norm_num)

/-- C4: for every frequency band, period, amplitude and sample count, the
"zero" reference waveform is the "one" reference waveform in exactly
reverse sample order, and both have exactly `samples` samples. -/
theorem zeroWave_reverse_oneWave :
    ∀ (fmin fmax period amplitude : ℝ) (samples : Nat),
      zeroWave fmin fmax period samples amplitude =
          (oneWave fmin fmax period samples amplitude).reverse ∧
        (oneWave fmin fmax period samples amplitude).length = samples ∧
        (zeroWave fmin fmax period samples amplitude).length = samples := by
  intro fmin fmax period amplitude samples
  have hlen : (oneWave fmin fmax period samples amplitude).length = samples := by
    rw [oneWave, chirp, linspace, List.length_map, List.length_map,
      List.length_map, List.length_range]
  refine ⟨rfl, hlen, ?_⟩
  rw [zeroWave, List.length_reverse, hlen]

/-- C7: the "one" chirp is generated over `samples` evenly spaced time
points t_i = period*i/samples covering [0, period) with the right
endpoint excluded, and its sample at time t is
sin(2*pi*(fmin + k*t/2)*t) with k = (fmax - fmin)/period. -/
theorem chirp_sample_formula :
    ∀ (fmin fmax period : ℝ) (samples : Nat), 0 < period →
      chirp fmin fmax period samples =
          (List.range samples).map (fun i : Nat =>
            Real.sin (2 * Real.pi *
              (fmin + (fmax - fmin) / period * (period * (i : ℝ) / samples) / 2) *
              (period * (i : ℝ) / samples))) ∧
        ∀ i : Nat, i < samples →
          0 ≤ period * i / samples ∧ period * i / samples < period := by
  intro fmin fmax period samples hp
  constructor
  · simp only [chirp, linspace, List.map_map]
    refine List.map_congr_left ?_
    intro i _
    simp only [Function.comp]
    congr 1
    ring
  · intro i hi
    have hs : 0 < samples := Nat.lt_of_le_of_lt (Nat.zero_le i) hi
    have hsR : (0 : ℝ) < samples := by exact_mod_cast hs
    have hiR : (i : ℝ) < samples := by exact_mod_cast hi
    constructor
    · positivity
    · rw [div_lt_iff₀ hsR]
      exact mul_lt_mul_of_pos_left hiR hp

/-- Witness for C7 at fmin=0, fmax=1, period=1, samples=2, i=0. -/
theorem chirp_sample_formula_witness :
    0 ≤ (1 : ℝ) * ((0 : Nat) : ℝ) / ((2 : Nat) : ℝ) ∧
      (1 : ℝ) * ((0 : Nat) : ℝ) / ((2 : Nat) : ℝ) < 1 :=
  (chirp_sample_formula 0 1 1 2 (by norm_num)).2 0 (by norm_num)

end ChirpChirp
